import Mathlib

/-!
Shallow embedding of `r03-criacao-pagina-html---coautoria-das-publicacoes.py`:
the coloring, attribute-normalization and edge-table logic of the
GEXF -> HTML co-authorship report generator.

Python numbers are modelled by `ℚ` (the script performs exact arithmetic on
the small decimal values in the data); the float `NaN` and the value `None`
are distinct constructors of `Attr`.  Python `float(s)` / `int(s)` string
parsing is modelled on the decimal-literal fragment (optional whitespace,
optional sign, digits, optional single dot) actually exercised by the data;
special forms (`inf`, `nan`, exponents, underscores) are outside the model
and are treated as parse failures.  `float(str(x))` on a numeric `x`
round-trips in Python 3, so reparsing a stored number yields the number
itself.  Graphs are modelled as node and edge lists with string ids, the
adjacency being derived from the edge list exactly as `networkx` does for
the undirected graphs `read_gexf` produces here (a self-loop makes a node
its own neighbor; `G.degree` counts a self-loop twice).
-/

deriving instance DecidableEq for Except

/-- A Python attribute value as it can appear in a node/edge data dict:
`None`, a (non-NaN) number, the float NaN, or a string. -/
inductive Attr where
  | none : Attr
  | num (q : ℚ) : Attr
  | nan : Attr
  | str (s : String) : Attr
deriving DecidableEq, Repr

/-- Python `int(q)` on a number: truncation toward zero. -/
def pyTrunc (q : ℚ) : ℤ := if 0 ≤ q then ⌊q⌋ else ⌈q⌉

/-- Leading/trailing whitespace strip performed by Python `float`/`int`. -/
def pyStrip (cs : List Char) : List Char :=
  ((cs.dropWhile (·.isWhitespace)).reverse.dropWhile (·.isWhitespace)).reverse

/-- Strip an optional leading sign; returns (isNegative, rest). -/
def stripSign : List Char → Bool × List Char
  | '+' :: cs => (false, cs)
  | '-' :: cs => (true, cs)
  | cs => (false, cs)

/-- Value of a digit list, most significant first (chars assumed digits). -/
def digitsVal (l : List Char) : ℕ := l.foldl (fun a c => 10 * a + (c.toNat - 48)) 0

/-- Unsigned body of a Python float literal: digits, optionally one dot with
more digits, at least one digit overall.  Returns
(integer part, fractional digits value, number of fractional digits). -/
def floatParseCore (cs : List Char) : Option (ℕ × ℕ × ℕ) :=
  let ip := cs.takeWhile (·.isDigit)
  let rest := cs.dropWhile (·.isDigit)
  match rest with
  | [] => if ip.isEmpty then Option.none else some (digitsVal ip, 0, 0)
  | '.' :: fp =>
      if fp.all (·.isDigit) && !(ip.isEmpty && fp.isEmpty) then
        some (digitsVal ip, digitsVal fp, fp.length)
      else Option.none
  | _ => Option.none

/-- Parse of Python `float(s)`: strip, optional sign, decimal body. -/
def floatParse (s : String) : Option (Bool × ℕ × ℕ × ℕ) :=
  let p := stripSign (pyStrip s.data)
  (floatParseCore p.2).map (fun t => (p.1, t))

/-- Numeric value of a parsed float literal. -/
def floatVal : Bool × ℕ × ℕ × ℕ → ℚ
  | (neg, i, f, l) => (if neg then -1 else 1) * ((i : ℚ) + (f : ℚ) / (10 : ℚ) ^ l)

/-- Python `float(s)` on a string; `Option.none` models `ValueError`. -/
def pyFloat? (s : String) : Option ℚ := (floatParse s).map floatVal

/-- Python `int(s)` on a string: optional sign then digits only
(`int("3.5")` raises).  `Option.none` models `ValueError`. -/
def pyInt? (s : String) : Option ℤ :=
  let p := stripSign (pyStrip s.data)
  if !p.2.isEmpty && p.2.all (·.isDigit) then
    some (if p.1 then -(digitsVal p.2 : ℤ) else (digitsVal p.2 : ℤ))
  else
    Option.none

/-- Python `s.replace(",", ".")`: for the one-character pattern this is exactly a
character-wise map. -/
def commaToDot (s : String) : String :=
  ⟨s.data.map (fun c => if c = ',' then '.' else c)⟩

/-- Python 3 `round(q)`: round half to even (banker's rounding). -/
def pyRound (q : ℚ) : ℤ :=
  if q - ⌊q⌋ < 1/2 then ⌊q⌋
  else if 1/2 < q - ⌊q⌋ then ⌊q⌋ + 1
  else if Even ⌊q⌋ then ⌊q⌋ else ⌊q⌋ + 1

/-- The script's fixed 10-entry palette (`PALETTE`). -/
def PALETTE : List String :=
  ["#5e4fa2", "#3288bd", "#66c2a5", "#abdda4", "#e6f598",
   "#fee08b", "#fdae61", "#f46d43", "#d53e4f", "#9e0142"]

/-- The clamp `t = 0.0 if t < 0 else (1.0 if t > 1 else t)` from `linear_color`. -/
def clamp01 (t : ℚ) : ℚ := if t < 0 then 0 else if 1 < t then 1 else t

/-- The palette index computed by `linear_color` on a numeric value in the
non-degenerate case: normalize, clamp to [0,1], scale by `plen - 1`, round,
clamp into bounds. -/
def linearIdx (q vmin vmax : ℚ) (plen : ℕ) : ℤ :=
  let t := clamp01 ((q - vmin) / (vmax - vmin))
  let i := pyRound (t * ((plen : ℚ) - 1))
  let i := if i < 0 then 0 else i
  if (plen : ℤ) ≤ i then (plen : ℤ) - 1 else i

/-- Function `linear_color` on a numeric (non-NaN) value (the code after the
`isnan` test). -/
def linearColorNum (q vmin vmax : ℚ) (palette : List String) : String :=
  if vmax ≤ vmin then palette.getD 0 ""
  else palette.getD (linearIdx q vmin vmax palette.length).toNat ""

/-- Function `linear_color(value, vmin, vmax, palette)`.  `value is None`
short-circuits before `float(value)` is evaluated; a string goes through
`float(value)` (no comma replacement!), which raises `ValueError` on a
non-decimal string — modelled by `Except.error`. -/
def linear_color (value : Attr) (vmin vmax : ℚ) (palette : List String) :
    Except String String :=
  match value with
  | .none => .ok (palette.getD 0 "")
  | .nan => .ok (palette.getD 0 "")
  | .num q => .ok (linearColorNum q vmin vmax palette)
  | .str s =>
      match pyFloat? s with
      | Option.none => .error "ValueError"
      | some q => .ok (linearColorNum q vmin vmax palette)

/-! ### The graph model and `build_graph` -/

/-- The node attribute dict, restricted to the keys the script touches.
`Option.none` in a field means the key is absent from the dict. -/
structure NodeData where
  label : Option String := Option.none
  conexoes : Option Attr := Option.none
  pubTot : Option Attr := Option.none
  pubCoa : Option Attr := Option.none
  prop : Option Attr := Option.none
  x : Option ℚ := Option.none
  y : Option ℚ := Option.none
  color : Option String := Option.none
deriving DecidableEq, Repr

structure PyNode where
  id : String
  data : NodeData
deriving DecidableEq, Repr

/-- An input edge with its raw `weight` attribute (absent allowed). -/
structure RawEdge where
  u : String
  v : String
  w : Option Attr := Option.none
deriving DecidableEq, Repr

structure PyGraph where
  nodes : List PyNode
  edges : List RawEdge
deriving DecidableEq, Repr

/-- Degree `G.degree[n]` of the undirected graph: each incident edge counts once,
a self-loop twice. -/
def pyDegree (edges : List RawEdge) (n : String) : ℕ :=
  (edges.map (fun e => (if e.u = n then 1 else 0) + (if e.v = n then 1 else 0))).sum

/-- The connectivity parse of `build_graph`:
`int(v)`, then `int(float(str(v).replace(",", ".")))`, else `None`. -/
def parseConex : Attr → Option ℤ
  | .none => Option.none
  | .num q => some (pyTrunc q)
  | .nan => Option.none
  | .str s =>
      match pyInt? s with
      | some z => some z
      | Option.none => (pyFloat? (commaToDot s)).map pyTrunc

/-- One node of the first `build_graph` loop: the connectivity value used
for `vmin`/`vmax`, and the (possibly updated) attribute dict.  The stored
attribute is overwritten with the degree only when the parse fails. -/
def connectivityFix (degree : ℕ) (d : NodeData) : ℤ × NodeData :=
  match d.conexoes with
  | some a =>
      match parseConex a with
      | some c => (c, d)
      | Option.none => ((degree : ℤ), { d with conexoes := some (.num (degree : ℚ)) })
  | Option.none => ((degree : ℤ), { d with conexoes := some (.num (degree : ℚ)) })

/-- The first `build_graph` loop over all nodes: collected connectivity
values (in node order) and the updated graph. -/
def connectivityPass (g : PyGraph) : List ℤ × PyGraph :=
  let rs := g.nodes.map (fun n =>
    let r := connectivityFix (pyDegree g.edges n.id) n.data
    (r.1, PyNode.mk n.id r.2))
  (rs.map Prod.fst, PyGraph.mk (rs.map Prod.snd) g.edges)

/-- Computes `min(conexoes_values) if conexoes_values else 0`. -/
def vminOf : List ℤ → ℤ
  | [] => 0
  | v :: vs => vs.foldl min v

/-- Computes `max(conexoes_values) if conexoes_values else 1`. -/
def vmaxOf : List ℤ → ℤ
  | [] => 1
  | v :: vs => vs.foldl max v

/-- The color-assignment loop of `build_graph`:
`conex = G.nodes[n].get("Conexões", 0); G.nodes[n]["color"] = linear_color(conex, vmin, vmax, PALETTE)`.
A raised exception aborts the whole loop (`Except.error`).  The x/y layout
assignment in the same loop comes from an opaque layout call and is
irrelevant to the claims; it is not modelled. -/
def colorPass (vmin vmax : ℤ) : List PyNode → Except String (List PyNode)
  | [] => .ok []
  | n :: ns =>
      match linear_color ((n.data.conexoes).getD (.num 0)) (vmin : ℚ) (vmax : ℚ) PALETTE with
      | .error e => .error e
      | .ok c =>
          (colorPass vmin vmax ns).map
            (fun rest => PyNode.mk n.id { n.data with color := some c } :: rest)

/-- Weight normalization `w = d.get("weight", 1); try: w = float(str(w).replace(",", ".")) except: w = 1.0`.
`str(q)` on a number reparses to `q` itself; `str(None) = "None"` fails to
parse; a NaN stored weight is outside the decimal fragment modelled here
(see the header) and is likewise treated as a parse failure. -/
def normWeight (w : Option Attr) : ℚ :=
  match w.getD (.num 1) with
  | .none => 1
  | .num q => q
  | .nan => 1
  | .str s => (pyFloat? (commaToDot s)).getD 1

/-- An edge after `build_graph`'s weight normalization. -/
structure NEdge where
  u : String
  v : String
  w : ℚ
deriving DecidableEq, Repr

def weightPass (edges : List RawEdge) : List NEdge :=
  edges.map (fun e => NEdge.mk e.u e.v (normWeight e.w))

/-- Function `build_graph` (reading/layout aside): connectivity pass, vmin/vmax,
color pass, weight pass. -/
def build_graph (g : PyGraph) : Except String (List PyNode × List NEdge) :=
  let p := connectivityPass g
  (colorPass (vminOf p.1) (vmaxOf p.1) p.2.nodes).map
    (fun ns => (ns, weightPass p.2.edges))

/-! ### `compute_common_neighbors_table` -/

/-- Map `neigh`: the neighbor-id set of `a` derived from the edge list, as
`networkx` adjacency (a self-loop makes `a` a neighbor of itself). -/
def neighborsIn (edges : List NEdge) (a : String) : Finset String :=
  (edges.filterMap (fun e =>
    if e.u = a then some e.v else if e.v = a then some e.u else Option.none)).toFinset

/-- Python `sorted([u, v])` for two strings. -/
def sortedPair (u v : String) : String × String := if v < u then (v, u) else (u, v)

/-- The dedup key `a + "||" + b` of `compute_common_neighbors_table`. -/
def pairKey (p : String × String) : String := p.1 ++ "||" ++ p.2

/-- Row weight `float(d.get("weight", 1) or 1)` on an already-normalized weight:
`0.0` is falsy and is replaced by `1`. -/
def rowWeight (w : ℚ) : ℚ := if w = 0 then 1 else w

/-- The display string `", ".join(sorted([la, lb]))`. -/
def joinPair (la lb : String) : String :=
  (sortedPair la lb).1 ++ ", " ++ (sortedPair la lb).2

/-- One row of the edge table. -/
structure Row where
  aresta : String
  colabs : ℚ
  comuns : ℕ
deriving DecidableEq, Repr

/-- The row built for an edge `e`. -/
def mkRow (neigh : String → Finset String) (lbl : String → String) (e : NEdge) : Row :=
  let p := sortedPair e.u e.v
  { aresta := joinPair (lbl p.1) (lbl p.2)
    colabs := rowWeight e.w
    comuns := ((neigh p.1 ∩ neigh p.2) \ {p.1, p.2}).card }

/-- The dedup-and-collect loop: a row is appended for an edge exactly when
its key `a + "||" + b` has not been seen. -/
def buildRows (neigh : String → Finset String) (lbl : String → String) :
    List NEdge → Finset String → List Row
  | [], _ => []
  | e :: es, seen =>
      let k := pairKey (sortedPair e.u e.v)
      if k ∈ seen then buildRows neigh lbl es seen
      else mkRow neigh lbl e :: buildRows neigh lbl es (insert k seen)

/-- The sort order `key=lambda r: (-colabs, -comuns, aresta)` as a Boolean
total preorder on rows. -/
def rowLE (r s : Row) : Bool :=
  decide (s.colabs < r.colabs ∨
    (r.colabs = s.colabs ∧
      (s.comuns < r.comuns ∨ (r.comuns = s.comuns ∧ r.aresta ≤ s.aresta))))

/-- Function `compute_common_neighbors_table(G, id_to_label)`: the lookup
`id_to_label.get(a, a)` is passed in as the total function `lbl`. -/
def compute_common_neighbors_table (edges : List NEdge) (lbl : String → String) :
    List Row :=
  (buildRows (neighborsIn edges) lbl edges ∅).mergeSort rowLE

/-! ### `graph_to_embeddable_json` -/

/-- The nested `to_int` of `graph_to_embeddable_json`: `int(x)`, then
`int(float(str(x).replace(",", ".")))`, else `0`.  (`int(None)` and
`int(nan)` raise on both attempts, giving `0`.) -/
def to_int (x : Attr) : ℤ :=
  match x with
  | .none => 0
  | .num q => pyTrunc q
  | .nan => 0
  | .str s =>
      match pyInt? s with
      | some z => z
      | Option.none => ((pyFloat? (commaToDot s)).map pyTrunc).getD 0

/-- The nested `to_float`: `float(str(x).replace(",", "."))`, else `None`.
(`str(None) = "None"` fails to parse; a NaN value is outside the decimal
fragment modelled here, see the header.) -/
def to_float (x : Attr) : Option ℚ :=
  match x with
  | .none => Option.none
  | .num q => some q
  | .nan => Option.none
  | .str s => pyFloat? (commaToDot s)

/-- One emitted node object of the `nodes` array. -/
structure EmbNode where
  id : String
  label : String
  x : ℚ
  y : ℚ
  r : ℚ
  color : String
  pubTot : ℤ
  pubCoa : ℤ
  conexoes : ℤ
  prop : Option ℚ
deriving DecidableEq, Repr

/-- The per-node emission of `graph_to_embeddable_json`, with the defensive
defaults `x = float(data.get("x", 0.0))`, `y` likewise,
`color = data.get("color", "#1f77b4")`, and the `to_int`/`to_float`
coercions on the table attributes. -/
def emitNode (radius : ℚ) (n : PyNode) : EmbNode :=
  { id := n.id
    label := (n.data.label).getD n.id
    x := (n.data.x).getD 0
    y := (n.data.y).getD 0
    r := radius
    color := (n.data.color).getD "#1f77b4"
    pubTot := to_int ((n.data.pubTot).getD (.num 0))
    pubCoa := to_int ((n.data.pubCoa).getD (.num 0))
    conexoes := to_int ((n.data.conexoes).getD (.num 0))
    prop := to_float ((n.data.prop).getD .none) }

/-- Lookup `id_to_label`: the dict maps each node id to `str(data.get("label", nid))`;
a later duplicate id would overwrite an earlier one, and `.get(a, a)`
defaults to the id itself. -/
def idToLabelOf (nodes : List PyNode) (a : String) : String :=
  match nodes.reverse.find? (fun n => n.id = a) with
  | some n => (n.data.label).getD n.id
  | Option.none => a

/-- Function `graph_to_embeddable_json` restricted to the parts the claims are
about: the emitted `nodes` array and the edge table. -/
def graph_to_embeddable_json (radius : ℚ) (nodes : List PyNode)
    (edges : List NEdge) : List EmbNode × List Row :=
  (nodes.map (emitNode radius), compute_common_neighbors_table edges (idToLabelOf nodes))

example : pyFloat? "3.5" = some (7/2) := by with_unfolding_all decide
example : pyFloat? "3,5" = Option.none := by with_unfolding_all decide
example : pyInt? "42" = some 42 := by with_unfolding_all decide
example : pyInt? "3.5" = Option.none := by with_unfolding_all decide
example : pyRound (9/2) = 4 := by with_unfolding_all decide
example : pyRound (11/2) = 6 := by with_unfolding_all decide
example : linearColorNum 5 0 10 PALETTE = "#e6f598" := by with_unfolding_all decide
example : linearColorNum 3 3 3 PALETTE = "#5e4fa2" := by with_unfolding_all decide
example : to_float (.str "3,5") = some (7/2) := by with_unfolding_all decide
example : to_int (.str "abc") = 0 := by with_unfolding_all decide
example :
    (compute_common_neighbors_table
      [NEdge.mk "A" "B" 1, NEdge.mk "B" "A" 1, NEdge.mk "A" "C" 1] id).length = 2 := by
  with_unfolding_all decide

/-! ### Helper lemmas: rounding and the color index -/

theorem pyRound_bounds (q : ℚ) : ⌊q⌋ ≤ pyRound q ∧ pyRound q ≤ ⌊q⌋ + 1 := by
  unfold pyRound; split_ifs <;> omega

theorem pyRound_nearest (q : ℚ) : |((pyRound q : ℤ) : ℚ) - q| ≤ 1/2 := by
  have h0 : ((⌊q⌋ : ℤ) : ℚ) ≤ q := Int.floor_le q
  have h1 : q < ⌊q⌋ + 1 := Int.lt_floor_add_one q
  unfold pyRound
  split_ifs with ha hb hc <;> rw [abs_le] <;> constructor <;> push_cast <;> linarith

theorem pyRound_mono {a b : ℚ} (hab : a ≤ b) : pyRound a ≤ pyRound b := by
  have hf : ⌊a⌋ ≤ ⌊b⌋ := Int.floor_mono hab
  rcases lt_or_eq_of_le hf with hlt | heq
  · have h1 : pyRound a ≤ ⌊a⌋ + 1 := (pyRound_bounds a).2
    have h2 : ⌊b⌋ ≤ pyRound b := (pyRound_bounds b).1
    omega
  · unfold pyRound
    rw [heq]
    have hs : a - ⌊b⌋ ≤ b - ⌊b⌋ := by linarith
    split_ifs <;> first | omega | linarith

theorem clamp01_mono {a b : ℚ} (hab : a ≤ b) : clamp01 a ≤ clamp01 b := by
  unfold clamp01; split_ifs <;> linarith

theorem clamp01_mem (t : ℚ) : 0 ≤ clamp01 t ∧ clamp01 t ≤ 1 := by
  unfold clamp01; split_ifs <;> constructor <;> linarith

theorem linearIdx_mem {q vmin vmax : ℚ} {plen : ℕ} (hp : 1 ≤ plen) :
    0 ≤ linearIdx q vmin vmax plen ∧ linearIdx q vmin vmax plen ≤ (plen : ℤ) - 1 := by
  have hp' : (1 : ℤ) ≤ (plen : ℤ) := by exact_mod_cast hp
  simp only [linearIdx]
  split_ifs <;> omega

theorem linearIdx_mono {a b vmin vmax : ℚ} {plen : ℕ}
    (hr : vmin < vmax) (hab : a ≤ b) (hp : 1 ≤ plen) :
    linearIdx a vmin vmax plen ≤ linearIdx b vmin vmax plen := by
  have hd : (0 : ℚ) < vmax - vmin := by linarith
  have ht : (a - vmin) / (vmax - vmin) ≤ (b - vmin) / (vmax - vmin) := by
    gcongr
  have hc := clamp01_mono ht
  have hplen : (0 : ℚ) ≤ (plen : ℚ) - 1 := by
    have : (1 : ℚ) ≤ (plen : ℚ) := by exact_mod_cast hp
    linarith
  have hm := mul_le_mul_of_nonneg_right hc hplen
  have hpr := pyRound_mono hm
  simp only [linearIdx]
  split_ifs <;> omega

theorem pyRound_scaled_mem {t : ℚ} (h0 : 0 ≤ t) (h1 : t ≤ 1) :
    0 ≤ pyRound (t * 9) ∧ pyRound (t * 9) ≤ 9 := by
  have hn := pyRound_nearest (t * 9)
  rw [abs_le] at hn
  have hlo : (-1 : ℚ) < ((pyRound (t * 9) : ℤ) : ℚ) := by nlinarith [hn.1]
  have hhi : ((pyRound (t * 9) : ℤ) : ℚ) < 10 := by nlinarith [hn.2]
  have hlo' : (-1 : ℤ) < pyRound (t * 9) := by exact_mod_cast hlo
  have hhi' : pyRound (t * 9) < (10 : ℤ) := by exact_mod_cast hhi
  omega

/-- For the fixed 10-entry palette the two index clamps of `linear_color`
are no-ops: the index is exactly the rounded scaled value. -/
theorem linearIdx_ten (q vmin vmax : ℚ) :
    linearIdx q vmin vmax 10 =
      pyRound (clamp01 ((q - vmin) / (vmax - vmin)) * 9) := by
  have hm := clamp01_mem ((q - vmin) / (vmax - vmin))
  have hb := pyRound_scaled_mem hm.1 hm.2
  simp only [linearIdx]
  have h9 : ((10 : ℕ) : ℚ) - 1 = 9 := by norm_num
  rw [h9]
  have h10 : ((10 : ℕ) : ℤ) = 10 := by norm_num
  rw [h10]
  rw [if_neg (by omega), if_neg (by omega)]

theorem linear_color_degenerate {v : Attr} {vmin vmax : ℚ} (hd : vmax ≤ vmin)
    {c : String} (h : linear_color v vmin vmax PALETTE = .ok c) : c = "#5e4fa2" := by
  have hfirst : PALETTE.getD 0 "" = "#5e4fa2" := rfl
  cases v with
  | none => simp only [linear_color] at h; rw [← hfirst]; exact (Except.ok.injEq _ _).mp h.symm
  | nan => simp only [linear_color] at h; rw [← hfirst]; exact (Except.ok.injEq _ _).mp h.symm
  | num q =>
      simp only [linear_color, linearColorNum, if_pos hd] at h
      rw [← hfirst]; exact (Except.ok.injEq _ _).mp h.symm
  | str s =>
      simp only [linear_color] at h
      cases hp : pyFloat? s with
      | none => rw [hp] at h; exact absurd h (by simp)
      | some q =>
          rw [hp] at h
          simp only [linearColorNum, if_pos hd] at h
          rw [← hfirst]; exact (Except.ok.injEq _ _).mp h.symm

theorem colorPass_degenerate {vmin vmax : ℤ} (hd : vmax ≤ vmin) :
    ∀ {ns ns' : List PyNode}, colorPass vmin vmax ns = .ok ns' →
      ∀ n ∈ ns', n.data.color = some "#5e4fa2" := by
  intro ns
  induction ns with
  | nil =>
      intro ns' h n hn
      simp only [colorPass] at h
      cases h
      simp at hn
  | cons hd' tl ih =>
      intro ns' h n hn
      simp only [colorPass] at h
      cases hlc : linear_color ((hd'.data.conexoes).getD (.num 0)) (vmin : ℚ) (vmax : ℚ) PALETTE with
      | error e => rw [hlc] at h; exact absurd h (by simp)
      | ok c =>
          rw [hlc] at h
          cases hcp : colorPass vmin vmax tl with
          | error e' => rw [hcp] at h; exact absurd h (by simp [Except.map])
          | ok rest =>
              rw [hcp] at h
              simp only [Except.map] at h
              cases h
              have hc : c = "#5e4fa2" :=
                linear_color_degenerate (by exact_mod_cast hd) hlc
              rcases List.mem_cons.mp hn with rfl | hmem
              · simp [hc]
              · exact ih hcp n hmem

theorem foldl_min_const {c : ℤ} :
    ∀ (l : List ℤ), (∀ x ∈ l, x = c) → ∀ v, v = c → l.foldl min v = c
  | [], _, v, hv => hv
  | x :: xs, h, v, hv => by
      have hx : x = c := h x (by simp)
      have hmin : min v x = c := by rw [hv, hx, min_self]
      exact foldl_min_const xs (fun y hy => h y (by simp [hy])) _ hmin

theorem foldl_max_const {c : ℤ} :
    ∀ (l : List ℤ), (∀ x ∈ l, x = c) → ∀ v, v = c → l.foldl max v = c
  | [], _, v, hv => hv
  | x :: xs, h, v, hv => by
      have hx : x = c := h x (by simp)
      have hmax : max v x = c := by rw [hv, hx, max_self]
      exact foldl_max_const xs (fun y hy => h y (by simp [hy])) _ hmax

/-- On a constant nonempty value list, `vmax = vmin`. -/
theorem vmaxOf_le_vminOf_of_const {l : List ℤ} (hne : l ≠ [])
    (h : ∀ x ∈ l, ∀ y ∈ l, x = y) : vmaxOf l ≤ vminOf l := by
  cases l with
  | nil => exact absurd rfl hne
  | cons v vs =>
      have hall : ∀ x ∈ v :: vs, x = v := fun x hx => h x hx v (by simp)
      have h1 : vminOf (v :: vs) = v :=
        foldl_min_const vs (fun y hy => hall y (by simp [hy])) v rfl
      have h2 : vmaxOf (v :: vs) = v :=
        foldl_max_const vs (fun y hy => hall y (by simp [hy])) v rfl
      rw [h1, h2]

theorem connectivityPass_fst (g : PyGraph) :
    (connectivityPass g).1 =
      g.nodes.map (fun n => (connectivityFix (pyDegree g.edges n.id) n.data).1) := by
  simp only [connectivityPass, List.map_map]
  rfl

theorem connectivityPass_nodes (g : PyGraph) :
    (connectivityPass g).2.nodes =
      g.nodes.map (fun n =>
        PyNode.mk n.id (connectivityFix (pyDegree g.edges n.id) n.data).2) := by
  simp only [connectivityPass, List.map_map]
  rfl

/-- C1: `linear_color` returns the first palette entry ("#5e4fa2") on a
missing (`None`) or NaN value and on a degenerate range `vmax ≤ vmin`;
otherwise, on a numeric value, it returns the palette entry at the index
obtained by normalizing into [0,1], clamping, scaling by `palette_size - 1 = 9`
and rounding to a nearest integer (the index clamp being a no-op: the index
is already within `[0, 9]`, witnessed by the bound conjuncts and the
half-distance bound).  In particular, when every node of a graph has the
same connectivity value, `build_graph` assigns every node the first palette
color. -/
theorem c1_linear_color_contract :
    PALETTE.length = 10 ∧
    (∀ vmin vmax : ℚ,
      linear_color .none vmin vmax PALETTE = .ok "#5e4fa2" ∧
      linear_color .nan vmin vmax PALETTE = .ok "#5e4fa2") ∧
    (∀ q vmin vmax : ℚ, vmax ≤ vmin →
      linear_color (.num q) vmin vmax PALETTE = .ok "#5e4fa2") ∧
    (∀ q vmin vmax : ℚ, vmin < vmax →
      linear_color (.num q) vmin vmax PALETTE =
        .ok (PALETTE.getD
          (pyRound (clamp01 ((q - vmin) / (vmax - vmin)) * 9)).toNat "") ∧
      0 ≤ pyRound (clamp01 ((q - vmin) / (vmax - vmin)) * 9) ∧
      pyRound (clamp01 ((q - vmin) / (vmax - vmin)) * 9) ≤ 9 ∧
      |((pyRound (clamp01 ((q - vmin) / (vmax - vmin)) * 9) : ℤ) : ℚ) -
        clamp01 ((q - vmin) / (vmax - vmin)) * 9| ≤ 1/2) ∧
    (∀ g ns es, build_graph g = .ok (ns, es) →
      (∀ x ∈ (connectivityPass g).1, ∀ y ∈ (connectivityPass g).1, x = y) →
      ∀ n ∈ ns, n.data.color = some "#5e4fa2") := by
  refine ⟨rfl, fun vmin vmax => ⟨rfl, rfl⟩, ?_, ?_, ?_⟩
  · intro q vmin vmax hd
    simp only [linear_color, linearColorNum, if_pos hd]
    rfl
  · intro q vmin vmax hr
    have hm := clamp01_mem ((q - vmin) / (vmax - vmin))
    have hb := pyRound_scaled_mem hm.1 hm.2
    refine ⟨?_, hb.1, hb.2, pyRound_nearest _⟩
    simp only [linear_color, linearColorNum, if_neg (not_le.mpr hr)]
    rw [show PALETTE.length = 10 from rfl, linearIdx_ten]
  · intro g ns es h hconst n hn
    simp only [build_graph] at h
    cases hcp : colorPass (vminOf (connectivityPass g).1) (vmaxOf (connectivityPass g).1)
        (connectivityPass g).2.nodes with
    | error e => rw [hcp] at h; exact absurd h (by simp [Except.map])
    | ok ns0 =>
        rw [hcp] at h
        simp only [Except.map] at h
        cases h
        by_cases hg : g.nodes = []
        · rw [connectivityPass_nodes, hg] at hcp
          simp only [List.map_nil, colorPass] at hcp
          cases hcp
          simp at hn
        · have hvne : (connectivityPass g).1 ≠ [] := by
            rw [connectivityPass_fst]
            simpa using hg
          exact colorPass_degenerate (vmaxOf_le_vminOf_of_const hvne hconst) hcp n hn

theorem c1_witness :
    (linear_color (.num 5) 0 10 PALETTE =
      .ok (PALETTE.getD (pyRound (clamp01 ((5 - 0) / (10 - 0)) * 9)).toNat "")) ∧
    (linear_color (.num 3) 4 4 PALETTE = .ok "#5e4fa2") ∧
    (∀ n ∈ ([PyNode.mk "a" { conexoes := some (.num 2), color := some "#5e4fa2" },
             PyNode.mk "b" { conexoes := some (.num 2), color := some "#5e4fa2" }] :
            List PyNode),
       n.data.color = some "#5e4fa2") := by
  refine ⟨(c1_linear_color_contract.2.2.2.1 5 0 10 (by norm_num)).1,
          c1_linear_color_contract.2.2.1 3 4 4 (by norm_num), ?_⟩
  exact c1_linear_color_contract.2.2.2.2
    (PyGraph.mk
      [PyNode.mk "a" { conexoes := some (.num 2) },
       PyNode.mk "b" { conexoes := some (.num 2) }]
      [RawEdge.mk "a" "b" (some (.num 1))])
    [PyNode.mk "a" { conexoes := some (.num 2), color := some "#5e4fa2" },
     PyNode.mk "b" { conexoes := some (.num 2), color := some "#5e4fa2" }]
    [NEdge.mk "a" "b" 1]
    (by with_unfolding_all decide) (by with_unfolding_all decide)

theorem palette_indexOf_getD :
    ∀ i : ℕ, i < 10 → PALETTE.indexOf (PALETTE.getD i "") = i := by decide

/-- C2: for a fixed non-degenerate range `vmin < vmax` and the fixed
palette, `linear_color` is monotone on numeric values within the range:
if `a ≤ b` then the palette index of the color of `a` is at most the
palette index of the color of `b`. -/
theorem c2_color_monotone (a b vmin vmax : ℚ)
    (hr : vmin < vmax) (ha : vmin ≤ a) (hab : a ≤ b) (hb : b ≤ vmax) :
    ∃ ca cb,
      linear_color (.num a) vmin vmax PALETTE = .ok ca ∧
      linear_color (.num b) vmin vmax PALETTE = .ok cb ∧
      PALETTE.indexOf ca ≤ PALETTE.indexOf cb := by
  have h10 : PALETTE.length = 10 := rfl
  have hia := @linearIdx_mem a vmin vmax 10 (by norm_num)
  have hib := @linearIdx_mem b vmin vmax 10 (by norm_num)
  have hca : linear_color (.num a) vmin vmax PALETTE =
      .ok (PALETTE.getD (linearIdx a vmin vmax 10).toNat "") := by
    show Except.ok (linearColorNum a vmin vmax PALETTE) = _
    rw [linearColorNum, if_neg (not_le.mpr hr), h10]
  have hcb : linear_color (.num b) vmin vmax PALETTE =
      .ok (PALETTE.getD (linearIdx b vmin vmax 10).toNat "") := by
    show Except.ok (linearColorNum b vmin vmax PALETTE) = _
    rw [linearColorNum, if_neg (not_le.mpr hr), h10]
  refine ⟨_, _, hca, hcb, ?_⟩
  rw [palette_indexOf_getD _ (by omega), palette_indexOf_getD _ (by omega)]
  exact Int.toNat_le_toNat (linearIdx_mono hr hab (by norm_num))

theorem c2_witness :
    ∃ ca cb,
      linear_color (.num 1) 0 3 PALETTE = .ok ca ∧
      linear_color (.num 2) 0 3 PALETTE = .ok cb ∧
      PALETTE.indexOf ca ≤ PALETTE.indexOf cb :=
  c2_color_monotone 1 2 0 3 (by norm_num) (by norm_num) (by norm_num) (by norm_num)

/-- C3 (code bug): `build_graph` crashes on a comma-decimal connectivity
string.  The first pass parses `"3,5"` to `3` via the comma-replacement
fallback but does not write the parsed value back, so the color pass feeds
the raw string `"3,5"` to `linear_color`, whose bare `float(value)` raises
`ValueError` — even though the comma form normalizes to the same value
`3.5` as the dot form. -/
theorem c3_comma_string_crashes :
    parseConex (.str "3,5") = some 3 ∧
    pyFloat? (commaToDot "3,5") = some (7/2) ∧
    pyFloat? (commaToDot "3.5") = some (7/2) ∧
    linear_color (.str "3,5") 1 3 PALETTE = .error "ValueError" ∧
    build_graph
      (PyGraph.mk
        [PyNode.mk "a" { conexoes := some (.str "3,5") },
         PyNode.mk "b" { conexoes := some (.num 1) }]
        [RawEdge.mk "a" "b" (some (.num 2))]) = .error "ValueError" := by
  with_unfolding_all decide

/-! ### C4: row count vs unique unordered pairs -/

theorem append_pipes_inj (l : List Char) :
    ∀ (l' m m' : List Char), '|' ∉ l → '|' ∉ l' →
      l ++ '|' :: '|' :: m = l' ++ '|' :: '|' :: m' → l = l' ∧ m = m' := by
  induction l with
  | nil =>
      intro l' m m' _ hl' h
      cases l' with
      | nil =>
          simp only [List.nil_append, List.cons.injEq] at h
          exact ⟨rfl, h.2.2⟩
      | cons c' t' =>
          simp only [List.nil_append, List.cons_append, List.cons.injEq] at h
          exact absurd (by rw [h.1]; exact List.mem_cons_self _ _) hl'
  | cons c t ih =>
      intro l' m m' hl hl' h
      cases l' with
      | nil =>
          simp only [List.cons_append, List.nil_append, List.cons.injEq] at h
          exact absurd (by rw [← h.1]; exact List.mem_cons_self _ _) hl
      | cons c' t' =>
          simp only [List.cons_append, List.cons.injEq] at h
          have hres := ih t' m m'
            (fun hm => hl (List.mem_cons_of_mem _ hm))
            (fun hm => hl' (List.mem_cons_of_mem _ hm)) h.2
          exact ⟨by rw [h.1, hres.1], hres.2⟩

/-- The dedup key `a + "||" + b` identifies the pair, provided the first
components contain no pipe character. -/
theorem pairKey_inj {p q : String × String}
    (hp : '|' ∉ p.1.data) (hq : '|' ∉ q.1.data) (h : pairKey p = pairKey q) :
    p = q := by
  have hd : p.1.data ++ '|' :: '|' :: p.2.data = q.1.data ++ '|' :: '|' :: q.2.data := by
    have hc := congrArg String.data h
    simpa [pairKey, String.data_append, List.append_assoc] using hc
  have hres := append_pipes_inj _ _ _ _ hp hq hd
  cases p; cases q
  simp only [Prod.mk.injEq]
  exact ⟨String.ext hres.1, String.ext hres.2⟩

theorem toFinset_map_eq_image {α β : Type} [DecidableEq α] [DecidableEq β]
    (f : α → β) (l : List α) : (l.map f).toFinset = l.toFinset.image f := by
  induction l with
  | nil => simp
  | cons a l ih => simp [ih]

theorem buildRows_length (neigh : String → Finset String) (lbl : String → String) :
    ∀ (es : List NEdge) (seen : Finset String),
      (buildRows neigh lbl es seen).length =
        (((es.map (fun e => pairKey (sortedPair e.u e.v))).toFinset) \ seen).card := by
  intro es
  induction es with
  | nil => intro seen; simp [buildRows]
  | cons e es ih =>
      intro seen
      simp only [buildRows, List.map_cons, List.toFinset_cons]
      by_cases hk : pairKey (sortedPair e.u e.v) ∈ seen
      · rw [if_pos hk, ih, Finset.insert_sdiff_of_mem _ hk]
      · rw [if_neg hk, List.length_cons, ih, Finset.sdiff_insert,
          Finset.insert_sdiff_of_not_mem _ hk]
        by_cases hm : pairKey (sortedPair e.u e.v) ∈
            (es.map (fun e => pairKey (sortedPair e.u e.v))).toFinset \ seen
        · rw [Finset.insert_eq_self.mpr hm, Finset.card_erase_add_one hm]
        · rw [Finset.erase_eq_of_not_mem hm, Finset.card_insert_of_not_mem hm]

theorem sortedPair_fst_mem (u v : String) :
    (sortedPair u v).1 = u ∨ (sortedPair u v).1 = v := by
  unfold sortedPair; split_ifs <;> simp

/-- C4 counterexample: the claim fails as stated.  The dedup key is the
concatenated string `a + "||" + b`, not the pair itself, and ids containing
pipes collide: the two distinct unordered pairs ("A", "||B") and
("A|", "|B") share the key "A||||B", so two edges on distinct pairs yield
only one row. -/
theorem c4_counterexample :
    (compute_common_neighbors_table
      [NEdge.mk "A" "||B" 1, NEdge.mk "A|" "|B" 1] id).length = 1 ∧
    ([NEdge.mk "A" "||B" 1, NEdge.mk "A|" "|B" 1].map
      (fun e => sortedPair e.u e.v)).toFinset.card = 2 ∧
    pairKey (sortedPair "A" "||B") = pairKey (sortedPair "A|" "|B") := by
  with_unfolding_all decide

/-- C4 (amended): for graphs whose node ids contain no pipe character
(so that the concatenated dedup key is injective), the number of edge-table
rows equals the number of unique unordered endpoint pairs among the
graph's edges. -/
theorem c4_unique_pairs (edges : List NEdge) (lbl : String → String)
    (hids : ∀ e ∈ edges, '|' ∉ e.u.data ∧ '|' ∉ e.v.data) :
    (compute_common_neighbors_table edges lbl).length =
      ((edges.map (fun e => sortedPair e.u e.v)).toFinset).card := by
  unfold compute_common_neighbors_table
  rw [List.length_mergeSort, buildRows_length, Finset.sdiff_empty]
  have hmap : edges.map (fun e => pairKey (sortedPair e.u e.v)) =
      (edges.map (fun e => sortedPair e.u e.v)).map pairKey := by
    rw [List.map_map]; rfl
  rw [hmap, toFinset_map_eq_image]
  apply Finset.card_image_of_injOn
  intro p hp q hq hpq
  have hp' : p ∈ edges.map (fun e => sortedPair e.u e.v) := by
    simpa using hp
  have hq' : q ∈ edges.map (fun e => sortedPair e.u e.v) := by
    simpa using hq
  obtain ⟨e, he, rfl⟩ := List.mem_map.mp hp'
  obtain ⟨e', he', rfl⟩ := List.mem_map.mp hq'
  apply pairKey_inj ?_ ?_ hpq
  · rcases sortedPair_fst_mem e.u e.v with h | h <;> rw [h]
    · exact (hids e he).1
    · exact (hids e he).2
  · rcases sortedPair_fst_mem e'.u e'.v with h | h <;> rw [h]
    · exact (hids e' he').1
    · exact (hids e' he').2

theorem c4_witness :
    (compute_common_neighbors_table
      [NEdge.mk "A" "B" 1, NEdge.mk "B" "A" 1, NEdge.mk "A" "C" 1] id).length =
      (([NEdge.mk "A" "B" 1, NEdge.mk "B" "A" 1, NEdge.mk "A" "C" 1].map
        (fun e => sortedPair e.u e.v)).toFinset).card ∧
    (compute_common_neighbors_table
      [NEdge.mk "A" "B" 1, NEdge.mk "B" "A" 1, NEdge.mk "A" "C" 1] id).length = 2 :=
  ⟨c4_unique_pairs [NEdge.mk "A" "B" 1, NEdge.mk "B" "A" 1, NEdge.mk "A" "C" 1] id
    (by with_unfolding_all decide),
   by with_unfolding_all decide⟩

theorem mem_buildRows {neigh : String → Finset String} {lbl : String → String} :
    ∀ {es : List NEdge} {seen : Finset String} {row : Row},
      row ∈ buildRows neigh lbl es seen → ∃ e, e ∈ es ∧ row = mkRow neigh lbl e := by
  intro es
  induction es with
  | nil => intro seen row h; simp [buildRows] at h
  | cons e es ih =>
      intro seen row h
      simp only [buildRows] at h
      split_ifs at h with hk
      · obtain ⟨e', he', hr⟩ := ih h
        exact ⟨e', List.mem_cons_of_mem _ he', hr⟩
      · rcases List.mem_cons.mp h with hr | h'
        · exact ⟨e, List.mem_cons_self _ _, hr⟩
        · obtain ⟨e', he', hr⟩ := ih h'
          exact ⟨e', List.mem_cons_of_mem _ he', hr⟩

/-- C5: every edge-table row counts exactly the common neighbors of the
sorted endpoint pair with both endpoints removed from the intersection;
in particular neither endpoint is ever counted, self-loops and mutual
adjacency notwithstanding. -/
theorem c5_shared_neighbors (edges : List NEdge) (lbl : String → String) (row : Row)
    (h : row ∈ compute_common_neighbors_table edges lbl) :
    ∃ e, e ∈ edges ∧
      ∃ a b, (a, b) = sortedPair e.u e.v ∧
        row.comuns = ((neighborsIn edges a ∩ neighborsIn edges b) \ {a, b}).card ∧
        a ∉ (neighborsIn edges a ∩ neighborsIn edges b) \ {a, b} ∧
        b ∉ (neighborsIn edges a ∩ neighborsIn edges b) \ {a, b} := by
  unfold compute_common_neighbors_table at h
  rw [List.mem_mergeSort] at h
  obtain ⟨e, he, rfl⟩ := mem_buildRows h
  refine ⟨e, he, (sortedPair e.u e.v).1, (sortedPair e.u e.v).2, rfl, rfl, ?_, ?_⟩
  · simp [Finset.mem_sdiff]
  · simp [Finset.mem_sdiff]

theorem c5_witness :
    (Row.mk "A, A" 1 1 ∈
      compute_common_neighbors_table [NEdge.mk "A" "A" 1, NEdge.mk "A" "B" 1] id) ∧
    (∃ e, e ∈ [NEdge.mk "A" "A" 1, NEdge.mk "A" "B" 1] ∧
      ∃ a b, (a, b) = sortedPair e.u e.v ∧
        (Row.mk "A, A" 1 1).comuns =
          ((neighborsIn [NEdge.mk "A" "A" 1, NEdge.mk "A" "B" 1] a ∩
            neighborsIn [NEdge.mk "A" "A" 1, NEdge.mk "A" "B" 1] b) \ {a, b}).card ∧
        a ∉ (neighborsIn [NEdge.mk "A" "A" 1, NEdge.mk "A" "B" 1] a ∩
            neighborsIn [NEdge.mk "A" "A" 1, NEdge.mk "A" "B" 1] b) \ {a, b} ∧
        b ∉ (neighborsIn [NEdge.mk "A" "A" 1, NEdge.mk "A" "B" 1] a ∩
            neighborsIn [NEdge.mk "A" "A" 1, NEdge.mk "A" "B" 1] b) \ {a, b}) :=
  ⟨by with_unfolding_all decide,
   c5_shared_neighbors [NEdge.mk "A" "A" 1, NEdge.mk "A" "B" 1] id
     (Row.mk "A, A" 1 1) (by with_unfolding_all decide)⟩

/-- C6: the weight recorded in an edge-table row is the edge's normalized
weight with fallback `1`: a normalized weight of exactly `0` is replaced by
`1` (falsy check), an absent raw weight normalizes to `1`, and an
unparseable raw string weight normalizes to `1`. -/
theorem c6_weight_fallback (raw : List RawEdge) (lbl : String → String) (row : Row)
    (h : row ∈ compute_common_neighbors_table (weightPass raw) lbl) :
    ∃ e, e ∈ raw ∧
      row.colabs = rowWeight (normWeight e.w) ∧
      (normWeight e.w = 0 → row.colabs = 1) ∧
      (normWeight e.w ≠ 0 → row.colabs = normWeight e.w) ∧
      (e.w = Option.none → normWeight e.w = 1 ∧ row.colabs = 1) ∧
      (∀ s, e.w = some (.str s) → pyFloat? (commaToDot s) = Option.none →
        normWeight e.w = 1 ∧ row.colabs = 1) := by
  unfold compute_common_neighbors_table at h
  rw [List.mem_mergeSort] at h
  obtain ⟨e', he', rfl⟩ := mem_buildRows h
  obtain ⟨e, he, rfl⟩ := List.mem_map.mp he'
  refine ⟨e, he, rfl, ?_, ?_, ?_, ?_⟩
  · intro h0
    show rowWeight (normWeight e.w) = 1
    simp [rowWeight, h0]
  · intro h0
    show rowWeight (normWeight e.w) = normWeight e.w
    simp [rowWeight, h0]
  · intro habs
    have h1 : normWeight e.w = 1 := by rw [habs]; rfl
    refine ⟨h1, ?_⟩
    show rowWeight (normWeight e.w) = 1
    rw [h1, rowWeight, if_neg (by norm_num)]
  · intro s hs hparse
    have h1 : normWeight e.w = 1 := by
      rw [hs]; simp [normWeight, hparse]
    refine ⟨h1, ?_⟩
    show rowWeight (normWeight e.w) = 1
    rw [h1, rowWeight, if_neg (by norm_num)]

theorem c6_witness :
    ∃ e, e ∈ [RawEdge.mk "A" "B" (some (.num 0))] ∧
      (Row.mk "A, B" 1 0).colabs = rowWeight (normWeight e.w) ∧
      (normWeight e.w = 0 → (Row.mk "A, B" 1 0).colabs = 1) ∧
      (normWeight e.w ≠ 0 → (Row.mk "A, B" 1 0).colabs = normWeight e.w) ∧
      (e.w = Option.none → normWeight e.w = 1 ∧ (Row.mk "A, B" 1 0).colabs = 1) ∧
      (∀ s, e.w = some (.str s) → pyFloat? (commaToDot s) = Option.none →
        normWeight e.w = 1 ∧ (Row.mk "A, B" 1 0).colabs = 1) :=
  c6_weight_fallback [RawEdge.mk "A" "B" (some (.num 0))] id (Row.mk "A, B" 1 0)
    (by with_unfolding_all decide)

theorem rowLE_trans (a b c : Row) (h1 : rowLE a b = true) (h2 : rowLE b c = true) :
    rowLE a c = true := by
  simp only [rowLE, decide_eq_true_eq] at h1 h2 ⊢
  rcases h1 with h1 | ⟨h1e, h1c | ⟨h1ce, h1s⟩⟩ <;>
    rcases h2 with h2 | ⟨h2e, h2c | ⟨h2ce, h2s⟩⟩
  · exact Or.inl (lt_trans h2 h1)
  · exact Or.inl (h2e ▸ h1)
  · exact Or.inl (h2e ▸ h1)
  · exact Or.inl (h1e ▸ h2)
  · exact Or.inr ⟨h1e.trans h2e, Or.inl (lt_trans h2c h1c)⟩
  · exact Or.inr ⟨h1e.trans h2e, Or.inl (h2ce ▸ h1c)⟩
  · exact Or.inl (h1e ▸ h2)
  · exact Or.inr ⟨h1e.trans h2e, Or.inl (h1ce ▸ h2c)⟩
  · exact Or.inr ⟨h1e.trans h2e, Or.inr ⟨h1ce.trans h2ce, le_trans h1s h2s⟩⟩

theorem rowLE_total (a b : Row) : (rowLE a b || rowLE b a) = true := by
  rw [Bool.or_eq_true]
  simp only [rowLE, decide_eq_true_eq]
  rcases lt_trichotomy a.colabs b.colabs with h | h | h
  · exact Or.inr (Or.inl h)
  · rcases lt_trichotomy a.comuns b.comuns with h' | h' | h'
    · exact Or.inr (Or.inr ⟨h.symm, Or.inl h'⟩)
    · rcases le_total a.aresta b.aresta with h'' | h''
      · exact Or.inl (Or.inr ⟨h, Or.inr ⟨h', h''⟩⟩)
      · exact Or.inr (Or.inr ⟨h.symm, Or.inr ⟨h'.symm, h''⟩⟩)
    · exact Or.inl (Or.inr ⟨h, Or.inl h'⟩)
  · exact Or.inl (Or.inl h)

/-- C7: the returned edge rows are sorted by weight descending, then
shared-neighbor count descending, then display string ascending; the order
is total, and between two rows of equal weight the one with the larger
shared-neighbor count strictly precedes the other. -/
theorem c7_sort_order (edges : List NEdge) (lbl : String → String) :
    (compute_common_neighbors_table edges lbl).Pairwise
      (fun r s => rowLE r s = true) ∧
    (∀ r s : Row, rowLE r s = true ∨ rowLE s r = true) ∧
    (∀ r s : Row, r.colabs = s.colabs → s.comuns < r.comuns →
      rowLE r s = true ∧ rowLE s r = false) := by
  refine ⟨?_, ?_, ?_⟩
  · unfold compute_common_neighbors_table
    exact List.sorted_mergeSort rowLE_trans rowLE_total _
  · intro r s
    have := rowLE_total r s
    rw [Bool.or_eq_true] at this
    exact this
  · intro r s hc hlt
    constructor
    · simp only [rowLE, decide_eq_true_eq]
      exact Or.inr ⟨hc, Or.inl hlt⟩
    · simp only [rowLE, decide_eq_false_iff_not]
      rintro (h | ⟨he, h | ⟨hce, hs⟩⟩)
      · exact absurd hc (ne_of_lt h)
      · omega
      · omega

theorem c7_witness :
    (compute_common_neighbors_table [NEdge.mk "A" "B" 5, NEdge.mk "A" "C" 5] id).Pairwise
      (fun r s => rowLE r s = true) ∧
    (rowLE (Row.mk "A, C" 5 3) (Row.mk "A, B" 5 2) = true ∧
     rowLE (Row.mk "A, B" 5 2) (Row.mk "A, C" 5 3) = false) :=
  ⟨(c7_sort_order [NEdge.mk "A" "B" 5, NEdge.mk "A" "C" 5] id).1,
   (c7_sort_order [] id).2.2 (Row.mk "A, C" 5 3) (Row.mk "A, B" 5 2)
     (by norm_num) (by norm_num)⟩

/-- C8: `to_int` tries direct integer conversion first; on failure it
replaces the comma by a dot, parses as float and truncates; on failure of
that too it returns the fallback `0`.  `to_float` replaces the comma by a
dot and parses as float, returning the missing marker (`Option.none`, never
`0`) on failure.  `"3,5"` coerces to the float `3.5`; `"abc"` in an integer
field coerces to the fallback `0`. -/
theorem c8_coercions :
    (∀ s z, pyInt? s = some z → to_int (.str s) = z) ∧
    (∀ s, pyInt? s = Option.none →
      to_int (.str s) = ((pyFloat? (commaToDot s)).map pyTrunc).getD 0) ∧
    (∀ q, to_int (.num q) = pyTrunc q) ∧
    (∀ s, to_float (.str s) = pyFloat? (commaToDot s)) ∧
    (∀ s, pyFloat? (commaToDot s) = Option.none → to_float (.str s) = Option.none) ∧
    to_float (.str "3,5") = some (7/2) ∧
    to_int (.str "abc") = 0 := by
  refine ⟨?_, ?_, fun q => rfl, fun s => rfl, ?_, ?_, ?_⟩
  · intro s z h; simp [to_int, h]
  · intro s h; simp [to_int, h]
  · intro s h; simp [to_float, h]
  · with_unfolding_all decide
  · with_unfolding_all decide

theorem c8_witness :
    to_int (.str "42") = 42 ∧
    to_int (.str "3.5") = ((pyFloat? (commaToDot "3.5")).map pyTrunc).getD 0 ∧
    to_float (.str "None") = Option.none :=
  ⟨c8_coercions.1 "42" 42 (by with_unfolding_all decide),
   c8_coercions.2.1 "3.5" (by with_unfolding_all decide),
   c8_coercions.2.2.2.2.1 "None" (by with_unfolding_all decide)⟩

theorem pyTrunc_natCast (d : ℕ) : pyTrunc ((d : ℕ) : ℚ) = (d : ℤ) := by
  rw [pyTrunc, if_pos (by positivity)]
  exact_mod_cast Int.floor_natCast d

theorem to_int_eq_of_parseConex {a : Attr} {c : ℤ} (h : parseConex a = some c) :
    to_int a = c := by
  cases a with
  | none => simp [parseConex] at h
  | nan => simp [parseConex] at h
  | num q =>
      simp only [parseConex, Option.some.injEq] at h
      simpa [to_int] using h
  | str s =>
      cases hi : pyInt? s with
      | some z =>
          have h' : z = c := by simpa [parseConex, hi] using h
          simp [to_int, hi, h']
      | none =>
          cases hf : pyFloat? (commaToDot s) with
          | none => exact absurd h (by simp [parseConex, hi, hf])
          | some q =>
              have h' : pyTrunc q = c := by simpa [parseConex, hi, hf] using h
              simp [to_int, hi, hf, h']

/-- C9: when the stored connectivity attribute is absent or unparseable,
the connectivity value used for `vmin`/`vmax` is the node's degree and the
attribute is overwritten with that degree, so the table builder's `to_int`
yields the degree; when the attribute parses, the value and the attribute
are the provided ones.  In all cases the numeric connectivity the table
builder computes equals the value collected in the first pass — either the
provided one or the derived degree. -/
theorem c9_connectivity_fallback (edges : List RawEdge) (n : PyNode) :
    ((n.data.conexoes = Option.none ∨
        (∃ a, n.data.conexoes = some a ∧ parseConex a = Option.none)) →
      (connectivityFix (pyDegree edges n.id) n.data).1 = (pyDegree edges n.id : ℤ) ∧
      (connectivityFix (pyDegree edges n.id) n.data).2.conexoes =
        some (.num (pyDegree edges n.id : ℚ)) ∧
      to_int (((connectivityFix (pyDegree edges n.id) n.data).2.conexoes).getD (.num 0)) =
        (pyDegree edges n.id : ℤ)) ∧
    (∀ a c, n.data.conexoes = some a → parseConex a = some c →
      (connectivityFix (pyDegree edges n.id) n.data).1 = c ∧
      (connectivityFix (pyDegree edges n.id) n.data).2 = n.data) ∧
    to_int (((connectivityFix (pyDegree edges n.id) n.data).2.conexoes).getD (.num 0)) =
      (connectivityFix (pyDegree edges n.id) n.data).1 := by
  refine ⟨?_, ?_, ?_⟩
  · rintro (habs | ⟨a, ha, hp⟩)
    · simp only [connectivityFix, habs]
      simp [to_int, pyTrunc_natCast]
    · simp only [connectivityFix, ha, hp]
      simp [to_int, pyTrunc_natCast]
  · intro a c ha hp
    simp [connectivityFix, ha, hp]
  · cases ha : n.data.conexoes with
    | none => simp only [connectivityFix, ha]; simp [to_int, pyTrunc_natCast]
    | some a =>
        cases hp : parseConex a with
        | none => simp only [connectivityFix, ha, hp]; simp [to_int, pyTrunc_natCast]
        | some c =>
            simp only [connectivityFix, ha, hp]
            simpa using to_int_eq_of_parseConex hp

theorem c9_witness :
    ((connectivityFix
        (pyDegree [RawEdge.mk "a" "b" Option.none] "a")
        (NodeData.mk Option.none (some (.str "abc")) Option.none Option.none
          Option.none Option.none Option.none Option.none)).1 =
      (pyDegree [RawEdge.mk "a" "b" Option.none] "a" : ℤ) ∧
      (connectivityFix
        (pyDegree [RawEdge.mk "a" "b" Option.none] "a")
        (NodeData.mk Option.none (some (.str "abc")) Option.none Option.none
          Option.none Option.none Option.none Option.none)).2.conexoes =
        some (.num (pyDegree [RawEdge.mk "a" "b" Option.none] "a" : ℚ)) ∧
      to_int (((connectivityFix
        (pyDegree [RawEdge.mk "a" "b" Option.none] "a")
        (NodeData.mk Option.none (some (.str "abc")) Option.none Option.none
          Option.none Option.none Option.none Option.none)).2.conexoes).getD (.num 0)) =
        (pyDegree [RawEdge.mk "a" "b" Option.none] "a" : ℤ)) :=
  (c9_connectivity_fallback [RawEdge.mk "a" "b" Option.none]
    (PyNode.mk "a"
      (NodeData.mk Option.none (some (.str "abc")) Option.none Option.none
        Option.none Option.none Option.none Option.none))).1
    (Or.inr ⟨.str "abc", rfl, by with_unfolding_all decide⟩)

/-- C10: `graph_to_embeddable_json` emits one node object per input node
(no omission, no failure), and a node lacking stored x/y/color attributes
receives the defaults x = 0, y = 0 and color "#1f77b4". -/
theorem c10_emit_defaults :
    (∀ (radius : ℚ) (nodes : List PyNode) (edges : List NEdge),
      (graph_to_embeddable_json radius nodes edges).1 = nodes.map (emitNode radius) ∧
      (graph_to_embeddable_json radius nodes edges).1.length = nodes.length) ∧
    (∀ (radius : ℚ) (n : PyNode),
      (n.data.x = Option.none → (emitNode radius n).x = 0) ∧
      (n.data.y = Option.none → (emitNode radius n).y = 0) ∧
      (n.data.color = Option.none → (emitNode radius n).color = "#1f77b4")) := by
  refine ⟨fun radius nodes edges => ⟨rfl, by simp [graph_to_embeddable_json]⟩, ?_⟩
  intro radius n
  refine ⟨fun h => ?_, fun h => ?_, fun h => ?_⟩ <;> simp [emitNode, h]

theorem c10_witness :
    ((emitNode 8 (PyNode.mk "a" {})).x = 0) ∧
    ((emitNode 8 (PyNode.mk "a" {})).y = 0) ∧
    ((emitNode 8 (PyNode.mk "a" {})).color = "#1f77b4") :=
  ⟨((c10_emit_defaults.2 8 (PyNode.mk "a" {})).1 rfl),
   ((c10_emit_defaults.2 8 (PyNode.mk "a" {})).2.1 rfl),
   ((c10_emit_defaults.2 8 (PyNode.mk "a" {})).2.2 rfl)⟩
